import Mathlib

/-!
Verification development for the `html_cleaner` module
(`src/app/src/utils/html_cleaner.py`).

The module is a pure text transformer.  We shallowly embed it over
`List Char` (wrapped into `String` at the public boundary):

* regular-expression passes are embedded as first-order scanners whose
  semantics were derived from the concrete patterns (each pattern in the
  source is deterministic enough that greedy matching never backtracks,
  which is noted at the corresponding definition);
* the two external library collaborators (`html2text` and Python's
  `quopri`/codec machinery) are treated as follows: the HTML-to-text
  converter is an abstract function parameter (the module only forwards
  to it), while `quopri.decodestring`, the `latin-1` encode and the
  `utf-8`-with-ignore decode are embedded concretely;
* the one fallible operation (`text.encode("latin-1")`, which raises on
  code points above U+00FF) is modelled with `Except`, and the
  surrounding `try/except` is the explicit match in
  `decode_quoted_printable`.

Case-insensitivity (`re.IGNORECASE`), `\d`, `\s` and `str.strip` are
modelled at ASCII level (`Char.toLower`, `Char.isDigit`, an ASCII
whitespace class); Python's versions are Unicode-aware supersets, which
none of the verified claims exercise.
-/

namespace Synapulse

/-- ASCII model of Python's `\s` class and of the characters stripped by
`str.strip()`: space, tab, newline, carriage return, vertical tab, form
feed. -/
def isSpacePy (c : Char) : Bool :=
  c = ' ' || c = '\t' || c = '\n' || c = '\r' || c = Char.ofNat 11 || c = Char.ofNat 12

/-- Lower-case a character list; models `re.IGNORECASE` by comparing
lower-cased text with lower-cased pattern literals (ASCII case map). -/
def lower (l : List Char) : List Char := l.map Char.toLower

/-- `startsWith pat l`: `pat` is a prefix of `l`. -/
def startsWith : List Char → List Char → Bool
  | [], _ => true
  | _ :: _, [] => false
  | a :: as, x :: xs => decide (a = x) && startsWith as xs

/-- `endsWith pat l`: `pat` is a suffix of `l` (models an `$`-anchored
literal at the end of a line). -/
def endsWith (pat l : List Char) : Bool := startsWith pat.reverse l.reverse

/-- `containsSeg pat l`: `pat` occurs contiguously somewhere in `l`
(models an unanchored literal regex match). -/
def containsSeg (pat : List Char) : List Char → Bool
  | [] => startsWith pat []
  | x :: xs => startsWith pat (x :: xs) || containsSeg pat xs

/-- `containsThen a b l`: some occurrence of `a` in `l` is followed
(after its end) by an occurrence of `b`; models an `a.*b` regex match. -/
def containsThen (a b : List Char) : List Char → Bool
  | [] => startsWith a [] && containsSeg b []
  | x :: xs =>
    (startsWith a (x :: xs) && containsSeg b (List.drop a.length (x :: xs)))
      || containsThen a b xs

/-- If the list starts with four ASCII digits, return the remainder
after them (helper for the `\d{4}.*LLC` pattern). -/
def after4Digits : List Char → Option (List Char)
  | a :: b :: c :: d :: rest =>
    if a.isDigit && b.isDigit && c.isDigit && d.isDigit then some rest else none
  | _ => none

/-- `digitRun4Then pat l`: somewhere in `l` four consecutive ASCII
digits occur, followed later by `pat`; models a `\d{4}.*pat` regex
match. -/
def digitRun4Then (pat : List Char) : List Char → Bool
  | [] => false
  | x :: xs =>
    (match after4Digits (x :: xs) with
     | some rest => containsSeg pat rest
     | none => false) || digitRun4Then pat xs

/-- Drop leading ASCII whitespace (a deterministic `\s*` whose follower
is never itself a whitespace character). -/
def dropWS : List Char → List Char
  | [] => []
  | x :: xs => if isSpacePy x then dropWS xs else x :: xs

/-! ### The whitespace normalizer (`_normalize_whitespace`)

`re.sub(r"\n{3,}", "\n\n", text)` replaces every maximal run of three or
more newlines by exactly two, and `re.sub(r" {2,}", " ", text)` replaces
every maximal run of two or more spaces by one.  Both are instances of
"clip every maximal run of `c` to at most `m` copies" with `m = 2`
resp. `m = 1` (the replacement text is exactly `m` copies of `c`, so
runs shorter than the threshold are kept as they are and longer ones
become exactly `m`).  `collapseAux` is a single left-to-right pass with
a pending-run counter. -/

def collapseAux (c : Char) (m : Nat) : List Char → Nat → List Char
  | [], cnt => List.replicate (min cnt m) c
  | x :: xs, cnt =>
    if x = c then collapseAux c m xs (cnt + 1)
    else List.replicate (min cnt m) c ++ x :: collapseAux c m xs 0

/-- Clip every maximal run of `c` in `l` to at most `m` copies. -/
def collapseRunsGE (c : Char) (m : Nat) (l : List Char) : List Char :=
  collapseAux c m l 0

/-- List-level `_normalize_whitespace`: first `\n{3,} → \n\n`, then
`␣{2,} → ␣`, in source order. -/
def normalizeWS (l : List Char) : List Char :=
  collapseRunsGE ' ' 1 (collapseRunsGE '\n' 2 l)

/-- `okRunsAux c m l cnt = true` iff, continuing a run of `cnt` copies
of `c` already seen, no run of `c` in `l` ever exceeds `m`. -/
def okRunsAux (c : Char) (m : Nat) : List Char → Nat → Bool
  | [], _ => true
  | x :: xs, cnt =>
    if x = c then decide (cnt + 1 ≤ m) && okRunsAux c m xs (cnt + 1)
    else okRunsAux c m xs 0

/-- `okRuns c m l`: every run of `c` in `l` has length at most `m`. -/
def okRuns (c : Char) (m : Nat) (l : List Char) : Bool := okRunsAux c m l 0

/-! ### The newsletter artifact remover (`_remove_newsletter_artifacts`) -/

/-- Match `\|\s*\|\s*\|` at the head of the list, returning the
remainder after the match.  (`\s*` here is deterministic: `|` is not a
whitespace character, so greedy munching never backtracks.) -/
def matchBars3 (l : List Char) : Option (List Char) :=
  match l with
  | x :: r1 =>
    if x = '|' then
      match dropWS r1 with
      | y :: r3 =>
        if y = '|' then
          match dropWS r3 with
          | z :: r5 => if z = '|' then some r5 else none
          | [] => none
        else none
      | [] => none
    else none
  | [] => none

/-- Match `\|\s*\|` at the head of the list. -/
def matchBars2 (l : List Char) : Option (List Char) :=
  match l with
  | x :: r1 =>
    if x = '|' then
      match dropWS r1 with
      | y :: r3 => if y = '|' then some r3 else none
      | [] => none
    else none
  | [] => none

/-- Match `\[\s*\]` at the head of the list. -/
def matchBrackets (l : List Char) : Option (List Char) :=
  match l with
  | x :: r1 =>
    if x = '[' then
      match dropWS r1 with
      | y :: r3 => if y = ']' then some r3 else none
      | [] => none
    else none
  | [] => none

/-- `re.sub(r"\|\s*\|\s*\|", "", text)`: scan left to right, deleting
each (leftmost, non-overlapping) match.  The fuel counts scanning
steps: every step consumes at least one character of the input, so a
fuel equal to the input length (as supplied by `subBars3`) never runs
out and the out-of-fuel clause is unreachable. -/
def subBars3F : Nat → List Char → List Char
  | _, [] => []
  | 0, l => l
  | fuel + 1, x :: xs =>
    match matchBars3 (x :: xs) with
    | some rest => subBars3F fuel rest
    | none => x :: subBars3F fuel xs

def subBars3 (l : List Char) : List Char := subBars3F l.length l

/-- `re.sub(r"\|\s*\|", "", text)` (same fuel discipline). -/
def subBars2F : Nat → List Char → List Char
  | _, [] => []
  | 0, l => l
  | fuel + 1, x :: xs =>
    match matchBars2 (x :: xs) with
    | some rest => subBars2F fuel rest
    | none => x :: subBars2F fuel xs

def subBars2 (l : List Char) : List Char := subBars2F l.length l

/-- `re.sub(r"\[\s*\]", "", text)` (same fuel discipline). -/
def subBracketsF : Nat → List Char → List Char
  | _, [] => []
  | 0, l => l
  | fuel + 1, x :: xs =>
    match matchBrackets (x :: xs) with
    | some rest => subBracketsF fuel rest
    | none => x :: subBracketsF fuel xs

def subBrackets (l : List Char) : List Char := subBracketsF l.length l

/-- The suffix of `l` starting at its last newline, if `l` has one
(helper for the backtracking of `\s*$`: the regex engine gives back
trailing whitespace until `$` holds, i.e. until just before the last
newline of the whitespace run). -/
def dropToLastNL : List Char → Option (List Char)
  | [] => none
  | x :: xs =>
    match dropToLastNL xs with
    | some r => some r
    | none => if x = '\n' then some (x :: xs) else none

/-- Count the leading `[-=]` run. -/
def takeDashEq : List Char → Nat
  | [] => 0
  | x :: xs => if x = '-' || x = '=' then takeDashEq xs + 1 else 0

/-- Drop the leading `[-=]` run. -/
def dropDashEq : List Char → List Char
  | [] => []
  | x :: xs => if x = '-' || x = '=' then dropDashEq xs else x :: xs

/-- Take the leading ASCII whitespace run. -/
def takeWS : List Char → List Char
  | [] => []
  | x :: xs => if isSpacePy x then x :: takeWS xs else []

/-- The trailing `\s*$` of the horizontal-rule pattern, applied to the
text `v` that follows the `[-=]{3,}` run: greedy whitespace munching
backtracks until `$` holds, i.e. either the whitespace run reaches the
end of the string (everything is consumed) or the run is consumed up to
(but not including) its last newline; if the run has no newline and
does not reach the end, the match fails.  Returns the remainder after
the whole match. -/
def hruleTail (v : List Char) : Option (List Char) :=
  if (v.drop (takeWS v).length).isEmpty then some []
  else
    match dropToLastNL (takeWS v) with
    | some r => some (r ++ v.drop (takeWS v).length)
    | none => none

/-- Match `^\s*[-=]{3,}\s*$` (with `re.MULTILINE`) at the head of the
list, assuming the head is at a line start; returns the remainder after
the match.  `\s` includes the newline, so the leading `\s*` may consume
blank lines. -/
def matchHRule (l : List Char) : Option (List Char) :=
  if takeDashEq (dropWS l) < 3 then none
  else hruleTail (dropDashEq (dropWS l))

/-- `re.sub(r"^\s*[-=]{3,}\s*$", "", text, flags=re.MULTILINE)`: scan
left to right; a match may only start where `^` holds, which the
boolean tracks (start of string, or just after a newline).  After a
match the next unconsumed character is never a newline, so scanning
resumes outside a line start.  Fuel discipline as in `subBars3F`
(every step consumes at least one character, a successful match at
least three). -/
def subHRuleF : Nat → Bool → List Char → List Char
  | _, _, [] => []
  | 0, _, l => l
  | fuel + 1, atStart, x :: xs =>
    if atStart then
      match matchHRule (x :: xs) with
      | some rest => subHRuleF fuel false rest
      | none => x :: subHRuleF fuel (x = '\n') xs
    else x :: subHRuleF fuel (x = '\n') xs

def subHRule (atStart : Bool) (l : List Char) : List Char :=
  subHRuleF l.length atStart l

/-- The fixed, ordered newsletter navigation/footer pattern list
(`NEWSLETTER_FILTER_PATTERNS`), with each regex classified by shape:
a plain case-insensitive literal, an `a.*b` pair, the `\d{4}.*LLC`
digit pattern, or an `$`-anchored literal. -/
inductive Pat where
  | lit : List Char → Pat
  | seq2 : List Char → List Char → Pat
  | d4then : List Char → Pat
  | endLit : List Char → Pat
deriving DecidableEq

/-- `lineMatches p line`: the regex for `p` matches somewhere in the
line (all patterns are applied with `re.IGNORECASE`, modelled by
lower-casing both sides). -/
def lineMatches : Pat → List Char → Bool
  | Pat.lit a, l => containsSeg (lower a) (lower l)
  | Pat.seq2 a b, l => containsThen (lower a) (lower b) (lower l)
  | Pat.d4then b, l => digitRun4Then (lower b) (lower l)
  | Pat.endLit a, l => endsWith (lower a) (lower l)

/-- The source's `NEWSLETTER_FILTER_PATTERNS`, in order:
`unsubscribe`, `update.*preferences`, `manage.*preferences`,
`view.*online`, `view.*browser`, `read.*online`, `follow.*on`,
`facebook$`, `twitter$`, `linkedin$`, `instagram$`, `youtube$`,
`social media`, `\d{4}.*LLC`, `all rights reserved`, `copyright`,
`Â©`. -/
def NEWSLETTER_FILTER_PATTERNS : List Pat :=
  [Pat.lit "unsubscribe".data,
   Pat.seq2 "update".data "preferences".data,
   Pat.seq2 "manage".data "preferences".data,
   Pat.seq2 "view".data "online".data,
   Pat.seq2 "view".data "browser".data,
   Pat.seq2 "read".data "online".data,
   Pat.seq2 "follow".data "on".data,
   Pat.endLit "facebook".data,
   Pat.endLit "twitter".data,
   Pat.endLit "linkedin".data,
   Pat.endLit "instagram".data,
   Pat.endLit "youtube".data,
   Pat.lit "social media".data,
   Pat.d4then "LLC".data,
   Pat.lit "all rights reserved".data,
   Pat.lit "copyright".data,
   Pat.lit "Â©".data]

/-- Split on newlines, Python-style: `"a\nb" ↦ ["a","b"]`,
`"\n" ↦ ["",""]`; the result is always non-empty. -/
def splitLinesCh : List Char → List (List Char)
  | [] => [[]]
  | x :: xs =>
    if x = '\n' then [] :: splitLinesCh xs
    else
      match splitLinesCh xs with
      | [] => [[x]]
      | l :: ls => (x :: l) :: ls

/-- Join lines back with newlines (inverse of `splitLinesCh` on
newline-free lines). -/
def joinLinesCh : List (List Char) → List Char
  | [] => []
  | [l] => l
  | l :: ls => l ++ '\n' :: joinLinesCh ls

/-- One `re.sub(rf"^.*{pattern}.*$", "", text, re.IGNORECASE |
re.MULTILINE)` pass: `.` does not match a newline and the match is
anchored at both ends of a line, so the sub empties exactly the lines
in which the pattern matches, leaving the newlines in place. -/
def applyLinePattern (p : Pat) (t : List Char) : List Char :=
  joinLinesCh ((splitLinesCh t).map (fun l => if lineMatches p l then [] else l))

/-- The `for pattern in NEWSLETTER_FILTER_PATTERNS:` loop. -/
def removeNavPatterns (t : List Char) : List Char :=
  NEWSLETTER_FILTER_PATTERNS.foldl (fun acc p => applyLinePattern p acc) t

/-- List-level `_remove_newsletter_artifacts`: table artifacts, empty
brackets, horizontal rules, then the navigation/footer pattern loop, in
source order. -/
def removeArtifactsL (l : List Char) : List Char :=
  removeNavPatterns (subHRule true (subBrackets (subBars2 (subBars3 l))))

/-! ### Quoted-printable decoding (`_decode_quoted_printable`) -/

/-- `re.search(r"=\d{2}[A-Za-z0-9]", text)`: the text contains an `=`
followed by two ASCII digits followed by an ASCII alphanumeric. -/
def hasQPSignature : List Char → Bool
  | '=' :: a :: b :: e :: rest =>
    (a.isDigit && b.isDigit && (e.isAlpha || e.isDigit))
      || hasQPSignature (a :: b :: e :: rest)
  | _ :: xs => hasQPSignature xs
  | [] => false

/-- Modelled from the spec: the signature of an escaped byte as the
spec words it — "an `=` followed by two hex/alnum characters".  Used
only to compare the spec's trigger condition against the code's
(`hasQPSignature`). -/
def specQPSignature : List Char → Bool
  | '=' :: a :: b :: rest =>
    ((a.isAlpha || a.isDigit) && (b.isAlpha || b.isDigit))
      || specQPSignature (a :: b :: rest)
  | _ :: xs => specQPSignature xs
  | [] => false

/-- `text.encode("latin-1")`: one byte per character; raises (here:
`none`) as soon as some character is above U+00FF. -/
def encodeLatin1 : List Char → Option (List Nat)
  | [] => some []
  | c :: cs =>
    if c.toNat ≤ 255 then
      match encodeLatin1 cs with
      | some bs => some (c.toNat :: bs)
      | none => none
    else none

/-- ASCII hex digit, as a byte. -/
def isHexDigitB (b : Nat) : Bool :=
  (48 ≤ b && b ≤ 57) || (65 ≤ b && b ≤ 70) || (97 ≤ b && b ≤ 102)

/-- Value of an ASCII hex digit byte. -/
def hexValB (b : Nat) : Nat :=
  if b ≤ 57 then b - 48 else if b ≤ 70 then b - 55 else b - 87

/-- Drop up to and including the next linefeed byte (CPython skips a
soft break `=\r...` through the next `\n`). -/
def skipPastLF : List Nat → List Nat
  | [] => []
  | b :: bs => if b = 10 then bs else skipPastLF bs

/-- What follows an `=` byte, per CPython `binascii.a2b_qp`
(`header=False`): the byte to emit (if any) and the remaining input.
`=HH` (hex, either case) decodes to a byte, `=\n` and `=\r...\n` soft
breaks are dropped, `==` yields a literal `=` (scanning continues after
the second `=`), a lone `=` at end of input is dropped, and any other
`=` is emitted literally with scanning resuming at the byte after the
`=`. -/
def qpAfterEq : List Nat → Option Nat × List Nat
  | [] => (none, [])
  | b2 :: rest =>
    if b2 = 10 then (none, rest)
    else if b2 = 13 then (none, skipPastLF rest)
    else if b2 = 61 then (some 61, rest)
    else
      match rest with
      | [] => (some 61, [b2])
      | b3 :: rest2 =>
        if isHexDigitB b2 && isHexDigitB b3 then
          (some (hexValB b2 * 16 + hexValB b3), rest2)
        else (some 61, b2 :: b3 :: rest2)

/-- Model of the external `quopri.decodestring` collaborator: bytes
other than `=` pass through; `=` is handled by `qpAfterEq`.  Fuel
discipline as in `subBars3F` (one unit per input byte suffices, since
`qpAfterEq` never lengthens its input). -/
def quopriDecodeF : Nat → List Nat → List Nat
  | _, [] => []
  | 0, l => l
  | fuel + 1, b :: bs =>
    if b = 61 then
      match qpAfterEq bs with
      | (some e, rest) => e :: quopriDecodeF fuel rest
      | (none, rest) => quopriDecodeF fuel rest
    else b :: quopriDecodeF fuel bs

def quopriDecode (l : List Nat) : List Nat := quopriDecodeF l.length l

/-- A UTF-8 continuation byte. -/
def contB (b : Nat) : Bool := 128 ≤ b && b < 192

/-- Valid second byte of a UTF-8 sequence with lead byte `b` (the lead
restricts the range so that overlong forms, surrogates and code points
above U+10FFFF are rejected, as CPython's decoder does). -/
def okSecondB (b b2 : Nat) : Bool :=
  if b = 224 then 160 ≤ b2 && b2 < 192
  else if b = 237 then 128 ≤ b2 && b2 < 160
  else if b = 240 then 144 ≤ b2 && b2 < 192
  else if b = 244 then 128 ≤ b2 && b2 < 144
  else contB b2

/-- One step of UTF-8 decoding with `errors="ignore"`, given the lead
byte `b` and the following bytes `bs`: the decoded character (if the
sequence starting at `b` is valid) and how many bytes of `bs` belong to
the (valid or maximal invalid) sequence and are consumed with it.  An
invalid or truncated sequence yields no character, dropping the lead
byte and the valid continuation bytes read so far. -/
def utf8Step (b : Nat) (bs : List Nat) : Option Char × Nat :=
  if b < 128 then (some (Char.ofNat b), 0)
  else if b < 194 then (none, 0)
  else if b < 224 then
    match bs with
    | b2 :: _ =>
      if contB b2 then (some (Char.ofNat ((b - 192) * 64 + (b2 - 128))), 1)
      else (none, 0)
    | [] => (none, 0)
  else if b < 240 then
    match bs with
    | b2 :: b3 :: _ =>
      if okSecondB b b2 then
        if contB b3 then
          (some (Char.ofNat ((b - 224) * 4096 + (b2 - 128) * 64 + (b3 - 128))), 2)
        else (none, 1)
      else (none, 0)
    | [b2] => if okSecondB b b2 then (none, 1) else (none, 0)
    | [] => (none, 0)
  else if b < 245 then
    match bs with
    | b2 :: b3 :: b4 :: _ =>
      if okSecondB b b2 then
        if contB b3 then
          if contB b4 then
            (some (Char.ofNat ((b - 240) * 262144 + (b2 - 128) * 4096
              + (b3 - 128) * 64 + (b4 - 128))), 3)
          else (none, 2)
        else (none, 1)
      else (none, 0)
    | [b2, b3] =>
      if okSecondB b b2 then (if contB b3 then (none, 2) else (none, 1))
      else (none, 0)
    | [b2] => if okSecondB b b2 then (none, 1) else (none, 0)
    | [] => (none, 0)
  else (none, 0)

/-- Model of the external `bytes.decode("utf-8", errors="ignore")`
collaborator: standard UTF-8 decoding, silently dropping the bytes of
each invalid or truncated sequence.  Fuel discipline as in
`subBars3F`. -/
def utf8DecodeIgnoreF : Nat → List Nat → List Char
  | _, [] => []
  | 0, _ => []
  | fuel + 1, b :: bs =>
    match utf8Step b bs with
    | (some ch, n) => ch :: utf8DecodeIgnoreF fuel (bs.drop n)
    | (none, n) => utf8DecodeIgnoreF fuel (bs.drop n)

def utf8DecodeIgnore (l : List Nat) : List Char := utf8DecodeIgnoreF l.length l

/-- `str.replace` with a non-empty pattern `p :: ps`: replace
non-overlapping occurrences left to right; the replacement is not
rescanned.  Fuel discipline as in `subBars3F`. -/
def replaceAllF (p : Char) (ps rep : List Char) : Nat → List Char → List Char
  | _, [] => []
  | 0, l => l
  | fuel + 1, x :: xs =>
    if decide (x = p) && startsWith ps xs then
      rep ++ replaceAllF p ps rep fuel (List.drop ps.length xs)
    else x :: replaceAllF p ps rep fuel xs

def replaceAll (p : Char) (ps rep l : List Char) : List Char :=
  replaceAllF p ps rep l.length l

/-- The fixed post-decode artifact substitutions, in source order:
`=3D` removed, `=2C` to a comma, smart right/left quote and apostrophe
escapes to ASCII, `=0A` to a newline. -/
def applyQPFixes (l : List Char) : List Char :=
  let l1 := replaceAll '=' ['3', 'D'] [] l
  let l2 := replaceAll '=' ['2', 'C'] [','] l1
  let l3 := replaceAll '=' ['E', '2', '=', '8', '0', '=', '9', '9'] [Char.ofNat 39] l2
  let l4 := replaceAll '=' ['E', '2', '=', '8', '0', '=', '9', 'C'] [Char.ofNat 34] l3
  let l5 := replaceAll '=' ['E', '2', '=', '8', '0', '=', '9', 'D'] [Char.ofNat 34] l4
  replaceAll '=' ['0', 'A'] ['\n'] l5

/-- The body of the `try:` block in `_decode_quoted_printable`: encode
as `latin-1` (the only step that can raise, modelled as
`Except.error`), decode quoted-printable, re-decode as UTF-8 ignoring
errors, then apply the fixed substitutions. -/
def decodeQPBody (l : List Char) : Except Unit (List Char) :=
  match encodeLatin1 l with
  | none => Except.error ()
  | some bs => Except.ok (applyQPFixes (utf8DecodeIgnore (quopriDecode bs)))

/-- `_decode_quoted_printable`: return the text unchanged unless the
signature is present; if the decode body raises, the `except` clause
returns the original text. -/
def decode_quoted_printable (l : List Char) : List Char :=
  if hasQPSignature l then
    match decodeQPBody l with
    | Except.ok r => r
    | Except.error _ => l
  else l

/-! ### The public surface -/

/-- `str.strip()`: drop leading and trailing whitespace. -/
def stripChars (l : List Char) : List Char :=
  ((l.dropWhile isSpacePy).reverse.dropWhile isSpacePy).reverse

/-- String-level `_normalize_whitespace`. -/
def normalize_whitespace (text : String) : String := ⟨normalizeWS text.data⟩

/-- String-level `str.strip()`. -/
def strip (text : String) : String := ⟨stripChars text.data⟩

/-- String-level `_remove_newsletter_artifacts`. -/
def remove_newsletter_artifacts (text : String) : String := ⟨removeArtifactsL text.data⟩

/-- The `html2text.HTML2Text` converter settings assigned in
`HTMLCleaner.__init__`. -/
structure HTML2TextSettings where
  ignore_links : Bool
  ignore_images : Bool
  ignore_emphasis : Bool
  body_width : Nat
  unicode_snob : Bool
deriving DecidableEq

/-- The `HTMLCleaner` object: its only state is the configured
converter. -/
structure HTMLCleaner where
  converter : HTML2TextSettings

/-- `HTMLCleaner.__init__`: `ignore_links = False`,
`ignore_images = True`, `ignore_emphasis = False`, `body_width = 0`,
`unicode_snob = True`. -/
def HTMLCleaner.init : HTMLCleaner := ⟨⟨false, true, false, 0, true⟩⟩

/-- `HTMLCleaner.clean`.  The external `html2text` conversion
(`self._converter.handle`) is the abstract parameter `handle`, a pure
function of the converter settings and the input. -/
def clean (handle : HTML2TextSettings → String → String) (self : HTMLCleaner)
    (html_content : String) : String :=
  if html_content = "" then ""
  else strip (normalize_whitespace (remove_newsletter_artifacts
    (handle self.converter html_content)))

/-- `HTMLCleaner.clean_simple`. -/
def clean_simple (text : String) : String :=
  if text = "" then ""
  else strip (normalize_whitespace ⟨decode_quoted_printable text.data⟩)

/-- The free-function wrapper `clean_html`: construct a fresh
`HTMLCleaner` and call `clean`. -/
def clean_html (handle : HTML2TextSettings → String → String)
    (html_content : String) : String :=
  clean handle HTMLCleaner.init html_content

/-! ## Lemmas about run collapsing (`_normalize_whitespace`) -/

theorem okRunsAux_replicate_same (c : Char) (m : Nat) :
    ∀ (j i : Nat) (rest : List Char), i + j ≤ m →
      okRunsAux c m (List.replicate j c ++ rest) i = okRunsAux c m rest (i + j) := by
  intro j
  induction j with
  | zero => intro i rest _; simp
  | succ j ih =>
    intro i rest h
    rw [List.replicate_succ, List.cons_append]
    simp only [okRunsAux, if_true]
    rw [decide_eq_true (by omega : i + 1 ≤ m), Bool.true_and]
    rw [ih (i + 1) rest (by omega)]
    congr 1
    omega

theorem okRunsAux_replicate_ne {c d : Char} (hne : c ≠ d) (k : Nat) :
    ∀ (j i : Nat) (rest : List Char),
      okRunsAux d k (List.replicate j c ++ rest) i
        = okRunsAux d k rest (if j = 0 then i else 0) := by
  intro j
  induction j with
  | zero => intro i rest; simp
  | succ j ih =>
    intro i rest
    rw [List.replicate_succ, List.cons_append]
    simp only [okRunsAux]
    rw [if_neg hne, ih 0 rest]
    simp

theorem okRunsAux_replicate_le (c : Char) (m j i : Nat) (h : i + j ≤ m) :
    okRunsAux c m (List.replicate j c) i = true := by
  have h2 := okRunsAux_replicate_same c m j i [] h
  rw [List.append_nil] at h2
  rw [h2]
  rfl

theorem okRunsAux_replicate_ne_nil {c d : Char} (hne : c ≠ d) (k j i : Nat) :
    okRunsAux d k (List.replicate j c) i = true := by
  have h2 := okRunsAux_replicate_ne hne k j i []
  rw [List.append_nil] at h2
  rw [h2]
  rfl

theorem okRuns_collapseAux (c : Char) (m : Nat) (l : List Char) :
    ∀ cnt : Nat, okRuns c m (collapseAux c m l cnt) = true := by
  induction l with
  | nil =>
    intro cnt
    show okRunsAux c m (collapseAux c m [] cnt) 0 = true
    simp only [collapseAux]
    exact okRunsAux_replicate_le c m (min cnt m) 0 (by omega)
  | cons x xs ih =>
    intro cnt
    show okRunsAux c m (collapseAux c m (x :: xs) cnt) 0 = true
    simp only [collapseAux]
    by_cases hx : x = c
    · rw [if_pos hx]
      exact ih (cnt + 1)
    · rw [if_neg hx]
      rw [okRunsAux_replicate_same c m (min cnt m) 0 (x :: collapseAux c m xs 0) (by omega)]
      simp only [okRunsAux]
      rw [if_neg hx]
      exact ih 0

theorem collapseAux_of_okRuns (c : Char) (m : Nat) (l : List Char) :
    ∀ cnt : Nat, cnt ≤ m → okRunsAux c m l cnt = true →
      collapseAux c m l cnt = List.replicate cnt c ++ l := by
  induction l with
  | nil =>
    intro cnt hle _
    simp only [collapseAux]
    rw [Nat.min_eq_left hle, List.append_nil]
  | cons x xs ih =>
    intro cnt hle hok
    simp only [collapseAux]
    simp only [okRunsAux] at hok
    by_cases hx : x = c
    · rw [if_pos hx]
      rw [if_pos hx, Bool.and_eq_true, decide_eq_true_eq] at hok
      rw [ih (cnt + 1) hok.1 hok.2]
      rw [List.replicate_succ' cnt c, hx]
      simp
    · rw [if_neg hx]
      rw [if_neg hx] at hok
      rw [Nat.min_eq_left hle, ih 0 (Nat.zero_le m) hok]
      simp

theorem okRunsAux_collapseAux_ne {c d : Char} (hne : c ≠ d) (k m : Nat) (hm : 1 ≤ m) :
    ∀ (l : List Char) (j cnt j2 : Nat), (j2 ≤ j ∨ 1 ≤ cnt) →
      okRunsAux d k l j = true →
      okRunsAux d k (collapseAux c m l cnt) j2 = true := by
  intro l
  induction l with
  | nil =>
    intro j cnt j2 _ _
    simp only [collapseAux]
    exact okRunsAux_replicate_ne_nil hne k (min cnt m) j2
  | cons x xs ih =>
    intro j cnt j2 hj hok
    simp only [collapseAux]
    simp only [okRunsAux] at hok
    by_cases hxc : x = c
    · rw [if_pos hxc]
      rw [if_neg (by rw [hxc]; exact hne)] at hok
      exact ih 0 (cnt + 1) j2 (Or.inr (by omega)) hok
    · rw [if_neg hxc]
      rw [okRunsAux_replicate_ne hne k (min cnt m) j2 (x :: collapseAux c m xs 0)]
      simp only [okRunsAux]
      by_cases hxd : x = d
      · rw [if_pos hxd]
        rw [if_pos hxd, Bool.and_eq_true, decide_eq_true_eq] at hok
        have hJle : (if min cnt m = 0 then j2 else 0) ≤ j := by
          by_cases hmin : min cnt m = 0
          · rw [if_pos hmin]
            rcases hj with hj | hj
            · exact hj
            · omega
          · rw [if_neg hmin]
            omega
        have hk1 : j + 1 ≤ k := hok.1
        rw [decide_eq_true (by omega : (if min cnt m = 0 then j2 else 0) + 1 ≤ k),
          Bool.true_and]
        exact ih (j + 1) 0 ((if min cnt m = 0 then j2 else 0) + 1)
          (Or.inl (by omega)) hok.2
      · rw [if_neg hxd]
        rw [if_neg hxd] at hok
        exact ih 0 0 0 (Or.inl (Nat.le_refl 0)) hok

theorem startsWith_replicate_okRunsAux_false {c : Char} {m : Nat} :
    ∀ (n : Nat) (l : List Char) (j : Nat), startsWith (List.replicate n c) l = true →
      1 ≤ n → m + 1 ≤ j + n → okRunsAux c m l j = false := by
  intro n
  induction n with
  | zero => intro l j _ h1 _; omega
  | succ n ih =>
    intro l j hsw _ hcount
    match l with
    | [] =>
      rw [List.replicate_succ] at hsw
      simp [startsWith] at hsw
    | x :: xs =>
      rw [List.replicate_succ] at hsw
      simp only [startsWith, Bool.and_eq_true, decide_eq_true_eq] at hsw
      rcases hsw with ⟨hx, hsw⟩
      simp only [okRunsAux]
      rw [if_pos hx.symm]
      by_cases hjm : j + 1 ≤ m
      · have hn : 1 ≤ n := by omega
        rw [ih xs (j + 1) hsw hn (by omega)]
        simp
      · rw [decide_eq_false hjm]
        simp

theorem containsSeg_replicate_okRunsAux_false {c : Char} {m : Nat} :
    ∀ (l : List Char) (j : Nat),
      containsSeg (List.replicate (m + 1) c) l = true → okRunsAux c m l j = false := by
  intro l
  induction l with
  | nil =>
    intro j hcs
    rw [List.replicate_succ] at hcs
    simp [containsSeg, startsWith] at hcs
  | cons x xs ih =>
    intro j hcs
    simp only [containsSeg, Bool.or_eq_true] at hcs
    rcases hcs with hsw | htail
    · exact startsWith_replicate_okRunsAux_false (m + 1) (x :: xs) j hsw
        (by omega) (by omega)
    · simp only [okRunsAux]
      by_cases hx : x = c
      · rw [if_pos hx, ih (j + 1) htail]
        simp
      · rw [if_neg hx]
        exact ih 0 htail

theorem okRuns_containsSeg_false {c : Char} {m : Nat} {l : List Char}
    (h : okRuns c m l = true) : containsSeg (List.replicate (m + 1) c) l = false := by
  cases hcs : containsSeg (List.replicate (m + 1) c) l with
  | false => rfl
  | true =>
    have h2 := containsSeg_replicate_okRunsAux_false l 0 hcs
    rw [okRuns] at h
    rw [h] at h2
    exact absurd h2 (by simp)

/-! ## Facts about `_normalize_whitespace` -/

theorem okRuns_space_normalizeWS (l : List Char) : okRuns ' ' 1 (normalizeWS l) = true :=
  okRuns_collapseAux ' ' 1 (collapseRunsGE '\n' 2 l) 0

theorem okRuns_newline_normalizeWS (l : List Char) :
    okRuns '\n' 2 (normalizeWS l) = true := by
  have hinner : okRunsAux '\n' 2 (collapseRunsGE '\n' 2 l) 0 = true :=
    okRuns_collapseAux '\n' 2 l 0
  exact okRunsAux_collapseAux_ne (by decide : ' ' ≠ '\n') 2 1 (by omega)
    (collapseRunsGE '\n' 2 l) 0 0 0 (Or.inl (Nat.le_refl 0)) hinner

theorem collapseRunsGE_of_okRuns {c : Char} {m : Nat} {l : List Char}
    (h : okRuns c m l = true) : collapseRunsGE c m l = l := by
  rw [collapseRunsGE, collapseAux_of_okRuns c m l 0 (Nat.zero_le m) h]
  simp

theorem normalizeWS_idem (l : List Char) : normalizeWS (normalizeWS l) = normalizeWS l := by
  rw [show normalizeWS (normalizeWS l)
      = collapseRunsGE ' ' 1 (collapseRunsGE '\n' 2 (normalizeWS l)) from rfl]
  rw [collapseRunsGE_of_okRuns (okRuns_newline_normalizeWS l)]
  exact collapseRunsGE_of_okRuns (okRuns_space_normalizeWS l)

/-- Claim C4: `_normalize_whitespace` collapses runs of three-or-more
newlines to exactly two and runs of two-or-more spaces to one; hence an
input containing four-or-more consecutive newlines yields an output
with at most two consecutive newlines, and an input containing
three-or-more consecutive spaces yields an output with at most one
consecutive space.  (Both conclusions hold for every input; the
hypotheses mirror the claim.) -/
theorem normalize_whitespace_run_bounds (t : String) :
    (containsSeg (List.replicate 4 '\n') t.data = true →
      containsSeg (List.replicate 3 '\n') (normalize_whitespace t).data = false)
    ∧ (containsSeg (List.replicate 3 ' ') t.data = true →
      containsSeg (List.replicate 2 ' ') (normalize_whitespace t).data = false) := by
  constructor
  · intro _
    exact okRuns_containsSeg_false (okRuns_newline_normalizeWS t.data)
  · intro _
    exact okRuns_containsSeg_false (okRuns_space_normalizeWS t.data)

/-- Witness for C4 at the concrete input `"a\n\n\n\n\nb   c"`. -/
theorem normalize_whitespace_run_bounds_witness :
    containsSeg (List.replicate 4 '\n') "a\n\n\n\n\nb   c".data = true
    ∧ containsSeg (List.replicate 3 '\n')
        (normalize_whitespace "a\n\n\n\n\nb   c").data = false
    ∧ containsSeg (List.replicate 3 ' ') "a\n\n\n\n\nb   c".data = true
    ∧ containsSeg (List.replicate 2 ' ')
        (normalize_whitespace "a\n\n\n\n\nb   c").data = false :=
  ⟨by decide, (normalize_whitespace_run_bounds "a\n\n\n\n\nb   c").1 (by decide),
    by decide, (normalize_whitespace_run_bounds "a\n\n\n\n\nb   c").2 (by decide)⟩

/-- Claim C5: `_normalize_whitespace` is idempotent. -/
theorem normalize_whitespace_idem (t : String) :
    normalize_whitespace (normalize_whitespace t) = normalize_whitespace t :=
  congrArg String.mk (normalizeWS_idem t.data)

/-! ## Lemmas about the line structure of the pattern passes -/

theorem splitLinesCh_ne_nil : ∀ l : List Char, splitLinesCh l ≠ [] := by
  intro l
  match l with
  | [] => simp [splitLinesCh]
  | x :: xs =>
    simp only [splitLinesCh]
    by_cases hx : x = '\n'
    · rw [if_pos hx]
      simp
    · rw [if_neg hx]
      cases h : splitLinesCh xs with
      | nil => simp
      | cons a as => simp

theorem splitLinesCh_no_nl : ∀ (l : List Char), ∀ s ∈ splitLinesCh l, '\n' ∉ s := by
  intro l
  induction l with
  | nil =>
    intro s hs
    simp only [splitLinesCh, List.mem_singleton] at hs
    simp [hs]
  | cons x xs ih =>
    intro s hs
    simp only [splitLinesCh] at hs
    by_cases hx : x = '\n'
    · rw [if_pos hx] at hs
      rcases List.mem_cons.mp hs with rfl | hs2
      · simp
      · exact ih s hs2
    · rw [if_neg hx] at hs
      cases h : splitLinesCh xs with
      | nil => exact absurd h (splitLinesCh_ne_nil xs)
      | cons a as =>
        rw [h] at hs
        rcases List.mem_cons.mp hs with rfl | hs2
        · intro hmem
          rcases List.mem_cons.mp hmem with h1 | h2
          · exact hx h1.symm
          · exact ih a (h ▸ List.mem_cons_self a as) h2
        · exact ih s (h ▸ List.mem_cons_of_mem a hs2)

theorem splitLinesCh_of_no_nl : ∀ {l : List Char}, '\n' ∉ l → splitLinesCh l = [l] := by
  intro l
  induction l with
  | nil => intro _; rfl
  | cons x xs ih =>
    intro h
    have hx : x ≠ '\n' := fun he => h (he ▸ List.mem_cons_self x xs)
    have hxs : '\n' ∉ xs := fun he => h (List.mem_cons_of_mem x he)
    simp only [splitLinesCh]
    rw [if_neg hx, ih hxs]

theorem splitLinesCh_append_cons {l : List Char} (h : '\n' ∉ l) (rest : List Char) :
    splitLinesCh (l ++ '\n' :: rest) = l :: splitLinesCh rest := by
  induction l with
  | nil =>
    simp only [List.nil_append, splitLinesCh]
    simp
  | cons x xs ih =>
    have hx : x ≠ '\n' := fun he => h (he ▸ List.mem_cons_self x xs)
    have hxs : '\n' ∉ xs := fun he => h (List.mem_cons_of_mem x he)
    rw [List.cons_append]
    simp only [splitLinesCh]
    rw [if_neg hx, ih hxs]

theorem splitLinesCh_joinLinesCh :
    ∀ ls : List (List Char), (∀ s ∈ ls, '\n' ∉ s) → ls ≠ [] →
      splitLinesCh (joinLinesCh ls) = ls
  | [], _, hne => absurd rfl hne
  | [s], h, _ => by
    show splitLinesCh s = [s]
    exact splitLinesCh_of_no_nl (h s (by simp))
  | s :: s2 :: ls, h, _ => by
    show splitLinesCh (s ++ '\n' :: joinLinesCh (s2 :: ls)) = s :: s2 :: ls
    rw [splitLinesCh_append_cons (h s (by simp))]
    rw [splitLinesCh_joinLinesCh (s2 :: ls) (fun x hx => h x (by simp [hx])) (by simp)]

theorem splitLines_applyLinePattern (p : Pat) (t : List Char) :
    splitLinesCh (applyLinePattern p t)
      = (splitLinesCh t).map (fun s => if lineMatches p s then [] else s) := by
  rw [applyLinePattern]
  apply splitLinesCh_joinLinesCh
  · intro s hs
    rw [List.mem_map] at hs
    rcases hs with ⟨a, ha, rfl⟩
    by_cases hm : lineMatches p a = true
    · simp [if_pos hm]
    · rw [if_neg hm]
      exact splitLinesCh_no_nl t a ha
  · have := splitLinesCh_ne_nil t
    simp [List.map_eq_nil]
    intro hc
    exact this hc

theorem splitLines_foldPatterns :
    ∀ (ps : List Pat) (t : List Char),
      splitLinesCh (ps.foldl (fun acc p => applyLinePattern p acc) t)
        = (splitLinesCh t).map
            (fun s => ps.foldl (fun s p => if lineMatches p s then [] else s) s) := by
  intro ps
  induction ps with
  | nil =>
    intro t
    simp
  | cons p ps ih =>
    intro t
    rw [List.foldl_cons, ih (applyLinePattern p t), splitLines_applyLinePattern]
    rw [List.map_map]
    rfl

theorem foldSteps_nil (ps : List Pat) :
    ps.foldl (fun s p => if lineMatches p s then [] else s) [] = [] := by
  induction ps with
  | nil => rfl
  | cons p ps ih =>
    rw [List.foldl_cons, ite_self]
    exact ih

theorem foldSteps_eq_nil_of_mem :
    ∀ (ps : List Pat) (s : List Char), (∃ p ∈ ps, lineMatches p s = true) →
      ps.foldl (fun s p => if lineMatches p s then [] else s) s = [] := by
  intro ps
  induction ps with
  | nil =>
    intro s h
    rcases h with ⟨p, hp, _⟩
    exact absurd hp (by simp)
  | cons q ps ih =>
    intro s h
    rw [List.foldl_cons]
    by_cases hq : lineMatches q s = true
    · rw [if_pos hq]
      exact foldSteps_nil ps
    · rw [if_neg hq]
      rcases h with ⟨p, hp, hm⟩
      rcases List.mem_cons.mp hp with rfl | hp2
      · exact absurd hm hq
      · exact ih s ⟨p, hp2, hm⟩

theorem removeNavPatterns_line {t : List Char} {i : Nat} {s : List Char}
    (hline : (splitLinesCh t)[i]? = some s)
    (hp : ∃ p ∈ NEWSLETTER_FILTER_PATTERNS, lineMatches p s = true) :
    (splitLinesCh (removeNavPatterns t))[i]? = some [] := by
  rw [removeNavPatterns, splitLines_foldPatterns]
  rw [List.getElem?_map, hline]
  rw [Option.map_some']
  rw [foldSteps_eq_nil_of_mem NEWSLETTER_FILTER_PATTERNS s hp]

/-! ## Lemmas about the pattern matchers -/

theorem startsWith_self_append : ∀ (p r : List Char), startsWith p (p ++ r) = true := by
  intro p
  induction p with
  | nil => intro r; rfl
  | cons x p ih =>
    intro r
    simp [startsWith, ih]

theorem containsSeg_of_startsWith {p l : List Char} (h : startsWith p l = true) :
    containsSeg p l = true := by
  match l with
  | [] => exact h
  | x :: xs => simp [containsSeg, h]

theorem containsSeg_mid : ∀ (q p r : List Char), containsSeg p (q ++ (p ++ r)) = true := by
  intro q p r
  induction q with
  | nil => exact containsSeg_of_startsWith (startsWith_self_append p r)
  | cons x q ih => simp [containsSeg, ih]

theorem digitRun4Then_of_parts :
    ∀ (P : List Char) (a b c d : Char) (Q R pat : List Char),
      a.isDigit = true → b.isDigit = true → c.isDigit = true → d.isDigit = true →
      digitRun4Then pat (P ++ a :: b :: c :: d :: (Q ++ (pat ++ R))) = true := by
  intro P
  induction P with
  | nil =>
    intro a b c d Q R pat ha hb hc hd
    rw [List.nil_append]
    simp only [digitRun4Then]
    rw [show after4Digits (a :: b :: c :: d :: (Q ++ (pat ++ R)))
        = some (Q ++ (pat ++ R)) by
      simp only [after4Digits]
      rw [if_pos (by simp [ha, hb, hc, hd])]]
    simp [containsSeg_mid Q pat R]
  | cons x P ih =>
    intro a b c d Q R pat ha hb hc hd
    rw [List.cons_append]
    simp only [digitRun4Then]
    rw [ih a b c d Q R pat ha hb hc hd]
    simp

/-! ## Claims about the navigation/footer pattern pass -/

/-- Claim C6: in `clean`'s artifact removal (the
`NEWSLETTER_FILTER_PATTERNS` pass), every line containing
"unsubscribe" anywhere in any letter case is removed entirely (its
content is emptied); in particular a text whose middle line is
"Please Unsubscribe from this list" loses that line. -/
theorem unsubscribe_lines_removed :
    (∀ (t : List Char) (i : Nat) (s : List Char),
      (splitLinesCh t)[i]? = some s →
      containsSeg "unsubscribe".data (lower s) = true →
      (splitLinesCh (removeNavPatterns t))[i]? = some [])
    ∧ remove_newsletter_artifacts "keep\nPlease Unsubscribe from this list\nalso"
        = "keep\n\nalso" := by
  constructor
  · intro t i s hline hsub
    apply removeNavPatterns_line hline
    refine ⟨Pat.lit "unsubscribe".data, by decide, ?_⟩
    show containsSeg (lower "unsubscribe".data) (lower s) = true
    rw [show lower "unsubscribe".data = "unsubscribe".data by decide]
    exact hsub
  · decide

/-- Witness for C6 at a concrete three-line text with an upper-case
"UNSUBSCRIBE" in its middle line. -/
theorem unsubscribe_lines_removed_witness :
    (splitLinesCh "x\nUNSUBSCRIBE now\ny".data)[1]? = some "UNSUBSCRIBE now".data
    ∧ containsSeg "unsubscribe".data (lower "UNSUBSCRIBE now".data) = true
    ∧ (splitLinesCh (removeNavPatterns "x\nUNSUBSCRIBE now\ny".data))[1]? = some [] :=
  ⟨by decide, by decide,
    unsubscribe_lines_removed.1 "x\nUNSUBSCRIBE now\ny".data 1
      "UNSUBSCRIBE now".data (by decide) (by decide)⟩

/-- Claim C7: the pattern matching is substring-based; every line
containing four consecutive digits followed later on the same line by
"LLC" (case-insensitively, with arbitrary text in between) is removed
entirely by the `\d{4}.*LLC` pattern pass. -/
theorem llc_lines_removed :
    ∀ (t : List Char) (i : Nat) (s : List Char),
      (splitLinesCh t)[i]? = some s →
      (∃ (P Q R : List Char) (a b c d : Char),
        lower s = P ++ a :: b :: c :: d :: (Q ++ ("llc".data ++ R))
        ∧ a.isDigit = true ∧ b.isDigit = true ∧ c.isDigit = true ∧ d.isDigit = true) →
      (splitLinesCh (removeNavPatterns t))[i]? = some [] := by
  intro t i s hline hex
  apply removeNavPatterns_line hline
  refine ⟨Pat.d4then "LLC".data, by decide, ?_⟩
  show digitRun4Then (lower "LLC".data) (lower s) = true
  rw [show lower "LLC".data = "llc".data by decide]
  rcases hex with ⟨P, Q, R, a, b, c, d, heq, ha, hb, hc, hd⟩
  rw [heq]
  exact digitRun4Then_of_parts P a b c d Q R "llc".data ha hb hc hd

/-- Witness for C7 at the line "Co 2023 foo LLC bar", whose four-digit
number and "LLC" are separated by unrelated text. -/
theorem llc_lines_removed_witness :
    (splitLinesCh "x\nCo 2023 foo LLC bar\ny".data)[1]? = some "Co 2023 foo LLC bar".data
    ∧ (splitLinesCh (removeNavPatterns "x\nCo 2023 foo LLC bar\ny".data))[1]? = some [] :=
  ⟨by decide,
    llc_lines_removed "x\nCo 2023 foo LLC bar\ny".data 1 "Co 2023 foo LLC bar".data
      (by decide)
      ⟨"co ".data, " foo ".data, " bar".data, '2', '0', '2', '3',
        by decide, by decide, by decide, by decide, by decide⟩⟩

/-- Counterexample to C2 as stated: the line "Twitter and Facebook"
ends with "Facebook", so the end-anchored case-insensitive pattern
`facebook$` does match it, and `clean`'s artifact removal removes the
whole line (the claim asserts this line is NOT removed by those
patterns). -/
theorem social_end_anchored_counterexample :
    lineMatches (Pat.endLit "facebook".data) "Twitter and Facebook".data = true
    ∧ remove_newsletter_artifacts "Twitter and Facebook" = "" :=
  ⟨by decide, by decide⟩

/-- Claim C2 (amended): a line ending in "Twitter" or "Facebook"
(case-insensitively) is removed entirely; the line
"Twitter and Facebook" ends in "Facebook" and therefore IS removed by
the end-anchored `facebook$` pattern; the end-anchored patterns still
do not over-match lines that merely contain, but do not end in, a bare
social-network name, e.g. "Facebook news today" is kept. -/
theorem social_end_anchored :
    (∀ (t : List Char) (i : Nat) (s : List Char),
      (splitLinesCh t)[i]? = some s →
      (endsWith "twitter".data (lower s) = true
        ∨ endsWith "facebook".data (lower s) = true) →
      (splitLinesCh (removeNavPatterns t))[i]? = some [])
    ∧ lineMatches (Pat.endLit "facebook".data) "Twitter and Facebook".data = true
    ∧ removeNavPatterns "Twitter and Facebook".data = []
    ∧ lineMatches (Pat.endLit "twitter".data) "Facebook news today".data = false
    ∧ lineMatches (Pat.endLit "facebook".data) "Facebook news today".data = false
    ∧ removeNavPatterns "Facebook news today".data = "Facebook news today".data := by
  refine ⟨?_, by decide, by decide, by decide, by decide, by decide⟩
  intro t i s hline hor
  apply removeNavPatterns_line hline
  rcases hor with he | he
  · refine ⟨Pat.endLit "twitter".data, by decide, ?_⟩
    show endsWith (lower "twitter".data) (lower s) = true
    rw [show lower "twitter".data = "twitter".data by decide]
    exact he
  · refine ⟨Pat.endLit "facebook".data, by decide, ?_⟩
    show endsWith (lower "facebook".data) (lower s) = true
    rw [show lower "facebook".data = "facebook".data by decide]
    exact he

/-- Witness for the universal part of C2 (amended) at a concrete
three-line text whose middle line ends in "Twitter". -/
theorem social_end_anchored_witness :
    (splitLinesCh "a\nJoin us later Twitter\nb".data)[1]?
      = some "Join us later Twitter".data
    ∧ (splitLinesCh (removeNavPatterns "a\nJoin us later Twitter\nb".data))[1]?
      = some [] :=
  ⟨by decide,
    social_end_anchored.1 "a\nJoin us later Twitter\nb".data 1
      "Join us later Twitter".data (by decide) (Or.inl (by decide))⟩

/-! ## Lemmas about quoted-printable decoding and `clean_simple` -/

theorem encodeLatin1_eq_none :
    ∀ {l : List Char}, (∃ c ∈ l, 255 < c.toNat) → encodeLatin1 l = none := by
  intro l
  induction l with
  | nil =>
    intro h
    rcases h with ⟨c, hc, _⟩
    exact absurd hc (by simp)
  | cons c cs ih =>
    intro h
    simp only [encodeLatin1]
    by_cases hc : c.toNat ≤ 255
    · rw [if_pos hc]
      rcases h with ⟨e, he, hbig⟩
      rcases List.mem_cons.mp he with rfl | he2
      · omega
      · rw [ih ⟨e, he2, hbig⟩]
    · rw [if_neg hc]

theorem decodeQPBody_error_of_latin1 {l : List Char} (h : encodeLatin1 l = none) :
    decodeQPBody l = Except.error () := by
  rw [decodeQPBody, h]

theorem decode_qp_of_body_error {l : List Char} (h : decodeQPBody l = Except.error ()) :
    decode_quoted_printable l = l := by
  rw [decode_quoted_printable]
  by_cases hs : hasQPSignature l = true
  · rw [if_pos hs, h]
  · rw [if_neg hs]

theorem decode_qp_of_no_signature {l : List Char} (h : hasQPSignature l = false) :
    decode_quoted_printable l = l := by
  rw [decode_quoted_printable, if_neg (by simp [h])]

theorem clean_simple_of_decode_id {t : String}
    (h : decode_quoted_printable t.data = t.data) :
    clean_simple t = strip (normalize_whitespace t) := by
  by_cases ht : t = ""
  · subst ht
    rfl
  · rw [clean_simple, if_neg ht, h]

/-! ## The claims about `clean_simple` and quoted-printable decoding -/

/-- Counterexample to C1 as stated: the input `"Caf=E9"` contains the
claim's signature (an `=` followed by two hex/alnum characters), yet
the code's detection regex `=\d{2}[A-Za-z0-9]` does not match it (the
two characters after `=` must be digits), so `clean_simple` does not
decode it and returns the text unchanged. -/
theorem qp_signature_counterexample :
    specQPSignature "Caf=E9".data = true
    ∧ hasQPSignature "Caf=E9".data = false
    ∧ decode_quoted_printable "Caf=E9".data = "Caf=E9".data
    ∧ clean_simple "Caf=E9" = "Caf=E9" :=
  ⟨by decide, by decide, by decide, by decide⟩

/-- Claim C1 (amended): `clean_simple` triggers quoted-printable
decoding iff the text matches `=\d{2}[A-Za-z0-9]` — an `=` followed by
two ASCII digits and then an ASCII alphanumeric; `"Caf=E9"` does not
contain this signature, and any input without it passes through
unchanged except for whitespace normalization and trimming. -/
theorem qp_signature_gates_decoding :
    (∀ t : String, hasQPSignature t.data = false →
      decode_quoted_printable t.data = t.data
      ∧ clean_simple t = strip (normalize_whitespace t))
    ∧ hasQPSignature "Caf=E9".data = false
    ∧ clean_simple "Caf=E9" = "Caf=E9" := by
  refine ⟨?_, by decide, by decide⟩
  intro t h
  have hd := decode_qp_of_no_signature (l := t.data) h
  exact ⟨hd, clean_simple_of_decode_id hd⟩

/-- Witness for C1 (amended) at the concrete signature-free input
`"a  b"`. -/
theorem qp_signature_gates_decoding_witness :
    hasQPSignature "a  b".data = false
    ∧ decode_quoted_printable "a  b".data = "a  b".data
    ∧ clean_simple "a  b" = strip (normalize_whitespace "a  b") :=
  ⟨by decide, (qp_signature_gates_decoding.1 "a  b" (by decide)).1,
    (qp_signature_gates_decoding.1 "a  b" (by decide)).2⟩

/-- Claim C3: any failure inside quoted-printable decoding (the
Latin-1 encode raising, modelled as `decodeQPBody` returning
`Except.error`) is caught, and `clean_simple` falls back to the
original, undecoded text, then whitespace-normalized and trimmed; no
error reaches the caller.  (In the embedding every other operation of
`clean` and `clean_simple` is a total function, so the decode body is
the only failure point, matching the source where only
`text.encode("latin-1")` can raise inside the `try`.) -/
theorem clean_simple_absorbs_decode_failure (t : String)
    (h : decodeQPBody t.data = Except.error ()) :
    clean_simple t = strip (normalize_whitespace t) :=
  clean_simple_of_decode_id (decode_qp_of_body_error h)

/-- Witness for C3 at the concrete input `"=12x€"`, whose decode body
fails (the euro sign is not representable in Latin-1). -/
theorem clean_simple_absorbs_decode_failure_witness :
    encodeLatin1 "=12x€".data = none
    ∧ clean_simple "=12x€" = strip (normalize_whitespace "=12x€") :=
  ⟨by decide, clean_simple_absorbs_decode_failure "=12x€"
    (decodeQPBody_error_of_latin1 (by decide))⟩

/-- Claim C9: for an input that carries the quoted-printable signature
and contains a character above U+00FF, encoding as Latin-1 fails, the
exception handler falls back to the undecoded text, and `clean_simple`
returns the original text unchanged apart from whitespace
normalization and trimming. -/
theorem clean_simple_latin1_fallback (t : String)
    (hsig : hasQPSignature t.data = true)
    (hbig : ∃ c ∈ t.data, 255 < c.toNat) :
    clean_simple t = strip (normalize_whitespace t) :=
  clean_simple_of_decode_id
    (decode_qp_of_body_error (decodeQPBody_error_of_latin1 (encodeLatin1_eq_none hbig)))

/-- Witness for C9 at the concrete input `"=55aĀ"` (`Ā` is U+0100). -/
theorem clean_simple_latin1_fallback_witness :
    hasQPSignature "=55aĀ".data = true
    ∧ (∃ c ∈ "=55aĀ".data, 255 < c.toNat)
    ∧ clean_simple "=55aĀ" = strip (normalize_whitespace "=55aĀ") :=
  ⟨by decide, ⟨'Ā', by decide, by decide⟩,
    clean_simple_latin1_fallback "=55aĀ" (by decide) ⟨'Ā', by decide, by decide⟩⟩

/-! ## The claims about the public surface -/

/-- Claim C8: `clean` (for any converter and any cleaner object) and
`clean_simple` both map the empty string to the empty string; empty
input is a base case, not an error. -/
theorem clean_empty (handle : HTML2TextSettings → String → String)
    (self : HTMLCleaner) :
    clean handle self "" = "" ∧ clean_simple "" = "" :=
  ⟨rfl, rfl⟩

/-- Claim C10: the free-function wrapper `clean_html` agrees with
constructing an `HTMLCleaner` and calling `clean`, for every converter
behavior and every input. -/
theorem clean_html_eq_clean (handle : HTML2TextSettings → String → String)
    (html_content : String) :
    clean_html handle html_content = clean handle HTMLCleaner.init html_content :=
  rfl

end Synapulse
